import Mathlib

/-!
Verification development for the tau time-series store (tau.py).

Shallow embedding conventions:
* Wall-clock instants (Python `datetime`) are integers counting microseconds
  (exactly a `datetime`'s precision); durations such as the retention window
  are integers of microseconds too (`timedelta(seconds=w)` is exact at this
  precision), and `(now - t).total_seconds() < period` becomes the exact
  microsecond comparison (the sub-microsecond double rounding inside
  `total_seconds` is ignored).  Each call to `datetime.now()` inside a
  Python function becomes an explicit parameter of the embedded function,
  in source order.
* JSON-serializable Python values become the inductive `Val`; the text
  backend's isoformat/JSON serialisation round trip is modelled as the
  identity on records, per the file-layout description.
* Python exceptions become `Except PyErr`; `BackendError`, `NameError`
  (an unbound local read) and `IOError` are distinguished.
* Python 2 integer division `/` on nonnegative ints is `Nat` division.
-/

/-- Python error kinds that the embedded code can raise. -/
inductive PyErr where
  | backendError
  | nameError
  | ioError
  deriving DecidableEq, Repr

/-- JSON-serializable Python values (memory and text backends store these). -/
inductive Val where
  | num (q : ℚ)
  | str (s : String)
  | bool (b : Bool)
  | null
  | list (l : List Val)
  | dict (l : List (String × Val))

/-- One sample: a (timestamp, value) pair, `[datetime, value]` in the source. -/
abbrev Sample := ℤ × Val

/-! ### Downsampling (tau.py lines 163-164, 205-206, 262-263)

`step = 1 if limit is None else len(result) / limit + 1` followed by
`result[::step]`.  `everyNthGo s l k` walks `l`, skipping `k` elements before
the next pick and then picking every `s`-th element; `everyNth l s` is the
Python slice `l[::s]` for `s ≥ 1`.  (Python raises ZeroDivisionError for
`limit = 0`; the embedded theorems only consider `limit ≥ 1`.) -/

def everyNthGo (s : ℕ) : List α → ℕ → List α
  | [], _ => []
  | a :: l, 0 => a :: everyNthGo s l (s - 1)
  | _ :: l, k + 1 => everyNthGo s l k

/-- Python's `l[::s]` for stride `s ≥ 1`: elements at indices 0, s, 2s, … -/
def everyNth (l : List α) (s : ℕ) : List α := everyNthGo s l 0

/-- Embedding of `step = 1 if limit is None else len(result) / limit + 1`
followed by `result[::step]` (shared by all three leaf backends). -/
def decimate (result : List α) (limit : Option ℕ) : List α :=
  let step := match limit with
    | none => 1
    | some l => result.length / l + 1
  everyNth result step

/-! ### MemoryBackend (tau.py lines 139-179) -/

/-- The `_state` dict of `MemoryBackend`: signal name ↦ series. -/
abbrev MemState := List (String × List Sample)

/-- Dict lookup `state[signal]` (with `signal in state` as `isSome`). -/
def lookupSig (state : MemState) (sig : String) : Option (List Sample) :=
  (state.find? (fun p => p.1 = sig)).map Prod.snd

/-- Embedding of `MemoryBackend._truncate` (lines 170-176): every series keeps
exactly the samples with `(now - t).total_seconds() < period`. -/
def truncate (state : MemState) (now period : ℤ) : MemState :=
  state.map (fun p => (p.1, p.2.filter (fun s => decide (now - s.1 < period))))

/-- Embedding of lines 148-150: `if key not in state: state[key] = []` then
`state[key].append([now, value])`. -/
def appendSample (state : MemState) (key : String) (s : Sample) : MemState :=
  match state with
  | [] => [(key, [s])]
  | (k, l) :: rest =>
      if k = key then (k, l ++ [s]) :: rest else (k, l) :: appendSample rest key s

/-- Embedding of `MemoryBackend.set` (lines 147-151).  `nowApp` is the
`datetime.now()` of the append, `nowTrunc` the one inside `_truncate`. -/
def memSet (state : MemState) (w : ℤ) (key : String) (v : Val)
    (nowApp nowTrunc : ℤ) : MemState :=
  truncate (appendSample state key (nowApp, v)) nowTrunc w

/-- Result computation of `MemoryBackend.get` (lines 155-165) over the
already pruned `_state`; `now₂` is the `now = datetime.now()` of line 158. -/
def memGetR (st : MemState) (w now₂ : ℤ) (signal : String)
    (start end_ : Option ℤ) (limit : Option ℕ) : Except PyErr (List Sample) :=
  match lookupSig st signal with
  | none => .ok []
  | some series =>
    match series with
    | [] => .ok []
    | _ :: _ =>
      match start, end_ with
      | some s, some e =>
          if ¬ (now₂ - w < s ∧ s < e ∧ e < now₂) then .error .backendError
          else
            .ok (decimate (series.filter (fun kv => decide (s ≤ kv.1 ∧ kv.1 ≤ e)))
              limit)
      | _, _ => .ok [series.getLastD ((0 : ℤ), Val.null)]

/-- Embedding of `MemoryBackend.get` (lines 153-165); returns the post-call
`_state` (the line 154 reassignment) together with the result.  `now₁` is
`_truncate`'s `datetime.now()`. -/
def memGet (state : MemState) (w : ℤ) (now₁ now₂ : ℤ) (signal : String)
    (start end_ : Option ℤ) (limit : Option ℕ) :
    MemState × Except PyErr (List Sample) :=
  (truncate state now₁ w,
    memGetR (truncate state now₁ w) w now₂ signal start end_ limit)

/-! ### CSVBackend (tau.py lines 182-219)

One file `<signal>.csv` per signal; each line is
`<isoformat timestamp>,<json value>`.  Per the file-layout description the
line encoding round-trips (strptime ∘ isoformat and json.loads ∘ json.dumps
are identities on the stored records), so a file is modelled as its list of
records.  Files are keyed by signal name since `signals()` recovers the
signal as `f[:-4]` of the file name `<signal>.csv`. -/

/-- The directory of a `CSVBackend`: signal name ↦ records of its file,
in directory order; a present key with `[]` is an existing empty file. -/
abbrev CSVState := List (String × List Sample)

/-- Embedding of `CSVBackend.set` (lines 189-191): append one line to the
signal's file, creating the file when absent. -/
def csvSet (st : CSVState) (key : String) (v : Val) (now : ℤ) : CSVState :=
  match st with
  | [] => [(key, [(now, v)])]
  | (k, l) :: rest =>
      if k = key then (k, l ++ [(now, v)]) :: rest else (k, l) :: csvSet rest key v now

/-- Embedding of `CSVBackend.signals` (lines 214-215). -/
def csvSignals (st : CSVState) : List String := st.map Prod.fst

/-- Embedding of `CSVBackend.get` (lines 193-212).  In the latest-value
branch the source leaves the loop variables unbound when the file has no
line and then raises `NameError` at `datetime.strptime(t, ...)`. -/
def csvGet (st : CSVState) (signal : String) (start end_ : Option ℤ)
    (limit : Option ℕ) : Except PyErr (List Sample) :=
  if signal ∈ csvSignals st then
    match (st.find? (fun p => p.1 = signal)).map Prod.snd with
    | none => .ok []
    | some records =>
      match start, end_ with
      | some s, some e =>
          let result := records.filter (fun kv => decide (s ≤ kv.1 ∧ kv.1 ≤ e))
          .ok (decimate result limit)
      | _, _ =>
          match records.getLast? with
          | none => .error .nameError
          | some last => .ok [last]
  else .ok []

/-! ### BinaryBackend (tau.py lines 222-281)

Two parallel files per signal, `<key>.TIME` (8-byte tick records) and
`<key>.VALUE` (4-byte IEEE-754 binary32 records).  The directory is a list
of (file name, typed content); content is typed by which record width the
code writes there (the two name spaces cannot collide since every `.TIME`
name ends differently from every `.VALUE` name). -/

/-- Content of one binary-backend file: tick records or float32 records. -/
inductive BinFile where
  | timeF (recs : List ℤ)
  | valueF (recs : List ℚ)

/-- A directory for the binary backend: file name ↦ content, listdir order. -/
abbrev BinFS := List (String × BinFile)

/-- Python `s.endswith(suffix)` as a structural list computation. -/
def pyEndsWith (s suffix : String) : Bool :=
  List.isPrefixOf suffix.data.reverse s.data.reverse

/-- Python `s.rstrip(chars)`: drop every trailing character in `chars`. -/
def pyRstrip (s : String) (chars : List Char) : String :=
  String.mk ((s.data.reverse.dropWhile (fun c => c ∈ chars)).reverse)

/-- Embedding of `BinaryBackend.signals` (lines 275-277):
`f.rstrip('.VALUE')` over the files ending in `.VALUE`. -/
def binSignals (fs : BinFS) : List String :=
  ((fs.map Prod.fst).filter (fun f => pyEndsWith f ".VALUE")).map
    (fun f => pyRstrip f ['.', 'V', 'A', 'L', 'U', 'E'])

/-- Embedding of `to_ticks` (lines 230-232): 100-nanosecond ticks since
`datetime.min`; `days * 864e9 + seconds * 1e7 + microseconds * 10` is ten
times the instant's microsecond count. -/
def toTicks (t : ℤ) : ℤ := t * 10

/-- Embedding of `to_date` (lines 245-246): `timedelta(microseconds=ticks/10)`
with Python 2 flooring integer division. -/
def toDate (n : ℤ) : ℤ := Int.fdiv n 10

/-- Parse of an optionally signed decimal string, the fragment of Python
`float(str)` the claims exercise; `none` on a malformed literal such as
`"I"` (the inf/nan/exponent forms are outside the model). -/
def parseFloatStr (s : List Char) : Option ℚ :=
  let core : List Char → Option ℚ := fun l =>
    let intPart := l.takeWhile Char.isDigit
    let rest := l.dropWhile Char.isDigit
    let fracPart : Option (List Char) :=
      match rest with
      | [] => some []
      | '.' :: r => if r.all Char.isDigit then some r else none
      | _ => none
    match fracPart with
    | none => none
    | some frac =>
        if intPart = [] ∧ frac = [] then none
        else
          let ip : ℚ := (intPart.foldl (fun a c => a * 10 + (c.toNat - 48)) 0 : ℕ)
          let fp : ℚ := (frac.foldl (fun a c => a * 10 + (c.toNat - 48)) 0 : ℕ)
          some (ip + fp / (10 : ℚ) ^ frac.length)
  match s with
  | '-' :: r => (core r).map Neg.neg
  | '+' :: r => core r
  | _ => core s

/-- Embedding of Python `float(value)` (line 234): `none` models the
ValueError/TypeError branch that `set` turns into BackendError. -/
def pyFloat : Val → Option ℚ
  | .num q => some q
  | .bool b => some (if b then 1 else 0)
  | .str s => parseFloatStr s.data
  | _ => none

/-- Power of two with integer exponent, as an executable rational. -/
def pow2 (e : ℤ) : ℚ :=
  if 0 ≤ e then (2 : ℚ) ^ e.toNat else 1 / (2 : ℚ) ^ (-e).toNat

/-- Fuel-driven ⌊log₂ q⌋ for `1 ≤ q`: halve until the value drops below 2. -/
def flogUp : ℕ → ℚ → ℤ
  | 0, _ => 0
  | f + 1, q => if q < 2 then 0 else flogUp f (q / 2) + 1

/-- Fuel-driven ⌊log₂ q⌋ for `0 < q < 1`: double until reaching 1. -/
def flogDown : ℕ → ℚ → ℤ
  | 0, _ => 0
  | f + 1, q => if 1 ≤ q then 0 else flogDown f (q * 2) - 1

/-- Executable ⌊log₂ q⌋ for positive rationals. -/
def floorLog2 (q : ℚ) : ℤ :=
  if 1 ≤ q then flogUp (q.num.natAbs + 1) q else flogDown (q.den + 1) q

/-- Round a rational to the nearest integer, ties to even. -/
def roundHalfEven (q : ℚ) : ℤ :=
  let f := ⌊q⌋
  let r := q - (f : ℚ)
  if r < 1 / 2 then f
  else if 1 / 2 < r then f + 1
  else if f % 2 = 0 then f else f + 1

/-- Modelled from the spec: the `.VALUE` records are "4-byte IEEE-754
floats" and `Struct('f').pack` (line 241) converts a Python float to one;
this is rounding to the nearest binary32 value (ties to even, subnormals
clamped at exponent -126; the out-of-range overflow to infinity is outside
the model, the claims stay far inside the finite range). -/
def roundF32Pos (q : ℚ) : ℚ :=
  let e := max (floorLog2 q) (-126)
  (roundHalfEven (q * pow2 (23 - e)) : ℚ) * pow2 (e - 23)

/-- Rounding of a rational to the nearest IEEE-754 binary32 value, the
effect of storing it through `Struct('f').pack` and reading it back. -/
def roundF32 (q : ℚ) : ℚ :=
  if q = 0 then 0
  else if 0 < q then roundF32Pos q
  else - roundF32Pos (-q)

/-- Update-or-create of one file in a binary-backend directory (the `'ab'`
append-mode open of lines 237-238); a new file lands at the directory end. -/
def fsUpd (fs : BinFS) (name : String) (f : Option BinFile → BinFile) : BinFS :=
  match fs with
  | [] => [(name, f none)]
  | (n, d) :: rest =>
      if n = name then (n, f (some d)) :: rest else (n, d) :: fsUpd rest name f

/-- Records of a `.TIME` file; a fresh or type-confused file reads empty. -/
def timeRecs : Option BinFile → List ℤ
  | some (.timeF l) => l
  | _ => []

/-- Records of a `.VALUE` file; a fresh or type-confused file reads empty. -/
def valueRecs : Option BinFile → List ℚ
  | some (.valueF l) => l
  | _ => []

/-- Embedding of `BinaryBackend.set` (lines 229-242): reject a value Python
`float` cannot convert, else append one tick record to `<key>.TIME` and the
binary32 rounding of the float to `<key>.VALUE`. -/
def binSet (fs : BinFS) (key : String) (v : Val) (now : ℤ) :
    Except PyErr BinFS :=
  match pyFloat v with
  | none => .error .backendError
  | some q =>
      let fs1 := fsUpd fs (key ++ ".TIME")
        (fun old => .timeF (timeRecs old ++ [toTicks now]))
      let fs2 := fsUpd fs1 (key ++ ".VALUE")
        (fun old => .valueF (valueRecs old ++ [roundF32 q]))
      .ok fs2

/-- Lookup of one file's content by name. -/
def fsFind (fs : BinFS) (name : String) : Option BinFile :=
  (fs.find? (fun p => p.1 = name)).map Prod.snd

/-- Embedding of `BinaryBackend.get` (lines 244-273).  The read loop pairs
record i of `.TIME` with record i of `.VALUE` and stops at the shorter file
(a truncated trailing record is discarded).  Opening a file the rstrip-mangled
signal name does not denote raises IOError; the latest-value branch leaves
its loop variables unbound on an empty pairing and raises `NameError`. -/
def binGet (fs : BinFS) (signal : String) (start end_ : Option ℤ)
    (limit : Option ℕ) : Except PyErr (List (ℤ × ℚ)) :=
  if signal ∈ binSignals fs then
    match fsFind fs (signal ++ ".TIME"), fsFind fs (signal ++ ".VALUE") with
    | some (.timeF ts), some (.valueF vs) =>
        let pairs := (ts.zip vs).map (fun p => (toDate p.1, p.2))
        match start, end_ with
        | some s, some e =>
            let result := pairs.filter (fun kv => decide (s ≤ kv.1 ∧ kv.1 ≤ e))
            .ok (decimate result limit)
        | _, _ =>
            match pairs.getLast? with
            | none => .error .nameError
            | some last => .ok [last]
    | _, _ => .error .ioError
  else .ok []

/-! ### GlueBackend (tau.py lines 284-324)

`GlueBackend` is duck-typed over its members; a member's behaviour on the
one call being studied is embedded as its outcome, `Except Unit β` (error =
the member raised `BackendError`).  The loops below mirror the source's
control flow, including the `got` local of `get` that is rebound to `None`
at the top of every iteration and is unbound when the member list is empty
(reading it then raises a `NameError`, not a `BackendError`). -/

/-- Error kinds `GlueBackend.get` can surface. -/
inductive GlueErr where
  | backendError
  | unboundLocal
  deriving DecidableEq, Repr

/-- Loop of `GlueBackend.get` (lines 303-314).  The second argument is the
state of the local `got` after the previous iteration: `none` = never bound
(no iteration ran), `some none` = bound to `None` (last member raised),
`some (some l)` = bound to a result list `l`. -/
def glueGetGo : List (Except Unit (List α)) → Option (Option (List α)) →
    Except GlueErr (List α)
  | [], none => .error .unboundLocal
  | [], some none => .error .backendError
  | [], some (some l) => .ok l
  | m :: rest, _ =>
      match m with
      | .error _ => glueGetGo rest (some none)
      | .ok l =>
          match l with
          | [] => glueGetGo rest (some (some []))
          | _ :: _ => .ok l

/-- Embedding of `GlueBackend.get` (lines 302-314) over the members'
outcomes for the queried signal/range, in member order. -/
def glueGet (members : List (Except Unit (List α))) : Except GlueErr (List α) :=
  glueGetGo members none

/-- Loop of `GlueBackend.set` (lines 292-298): `at_least_one` accumulator. -/
def glueSetGo : List (Except Unit Unit) → Bool → Except Unit Unit
  | [], atLeastOne => if atLeastOne then .ok () else .error ()
  | m :: rest, atLeastOne =>
      match m with
      | .ok _ => glueSetGo rest true
      | .error _ => glueSetGo rest atLeastOne

/-- Embedding of `GlueBackend.set` (lines 291-300) over the members'
outcomes for the attempted write, in member order; every member is
attempted, per-member `BackendError` is swallowed. -/
def glueSet (members : List (Except Unit Unit)) : Except Unit Unit :=
  glueSetGo members false

/-- Embedding of `GlueBackend.clear` (lines 322-324): `for b in backends:
b.clear()` with no exception handling.  Returns, for each member in order,
whether its `clear` was invoked, and whether an exception escaped the loop. -/
def glueClear : List (Except Unit Unit) → List Bool × Bool
  | [] => ([], false)
  | .ok _ :: rest =>
      let p := glueClear rest
      (true :: p.1, p.2)
  | .error _ :: rest => (true :: rest.map (fun _ => false), true)

/-! ### Query engine Tau (tau.py lines 327-382)

`fnmatchcase` (Python 2.7 `fnmatch.translate` + anchored regex match) is
embedded as a direct glob matcher over character lists: `*` matches any
run, `?` any one character, `[...]` a character class with leading `!`
negation, a leading literal `]`, `a-b` ranges, and an unterminated `[`
taken literally. -/

/-- Scan a pattern tail for the closing `]` of a character class. -/
def scanClose : List Char → Option (List Char × List Char)
  | [] => none
  | ']' :: rest => some ([], rest)
  | c :: rest =>
      match scanClose rest with
      | none => none
      | some (a, b) => some (c :: a, b)

/-- Split class content and remainder after `[`, with `fnmatch.translate`'s
treatment of a leading `!` and of a literal `]` in first position. -/
def splitClass (ps : List Char) : Option (List Char × List Char) :=
  match ps with
  | '!' :: ']' :: rest =>
      match scanClose rest with
      | none => none
      | some (a, b) => some ('!' :: ']' :: a, b)
  | '!' :: rest =>
      match scanClose rest with
      | none => none
      | some (a, b) => some ('!' :: a, b)
  | ']' :: rest =>
      match scanClose rest with
      | none => none
      | some (a, b) => some (']' :: a, b)
  | rest => scanClose rest

/-- Match of one character against class content (regex-class semantics:
`a-b` ranges, everything else literal). -/
def classMatch : List Char → Char → Bool
  | a :: '-' :: b :: rest, c =>
      if a ≤ c ∧ c ≤ b then true else classMatch rest c
  | a :: rest, c => if a = c then true else classMatch rest c
  | [], _ => false

/-- Match of one character against full class content including negation. -/
def classMatches (stuff : List Char) (c : Char) : Bool :=
  match stuff with
  | '!' :: rest => ! classMatch rest c
  | _ => classMatch stuff c

/-- Fuel-driven anchored glob match of string `s` against pattern `p`;
`p.length + s.length + 1` fuel always suffices (every step consumes
pattern or string). -/
def globMatchF : ℕ → List Char → List Char → Bool
  | 0, _, _ => false
  | _ + 1, [], s => s.isEmpty
  | fuel + 1, '*' :: ps, s =>
      globMatchF fuel ps s ||
        (match s with
         | [] => false
         | _ :: cs => globMatchF fuel ('*' :: ps) cs)
  | fuel + 1, '?' :: ps, s =>
      match s with
      | [] => false
      | _ :: cs => globMatchF fuel ps cs
  | fuel + 1, '[' :: ps, s =>
      match splitClass ps with
      | none =>
          match s with
          | '[' :: cs => globMatchF fuel ps cs
          | _ => false
      | some (stuff, rest) =>
          match s with
          | [] => false
          | c :: cs => classMatches stuff c && globMatchF fuel rest cs
  | fuel + 1, p :: ps, s =>
      match s with
      | [] => false
      | c :: cs => p = c && globMatchF fuel ps cs

/-- Embedding of `fnmatchcase(name, pattern)` (case-sensitive glob). -/
def fnmatchcase (name pattern : String) : Bool :=
  globMatchF (pattern.data.length + name.data.length + 1) pattern.data name.data

/-- Embedding of `Tau._is_pattern` (lines 374-376). -/
def is_pattern (s : String) : Bool :=
  s.data.any (fun c => c = '*' ∨ c = '?' ∨ c = '[' ∨ c = ']')

/-- Embedding of `Tau._matching_signals` (lines 368-372): glob expansions of
the pattern arguments against the known signals, plus the non-pattern
arguments verbatim, collected into a Python set. -/
def matching_signals (signals : List String) (args : List String) :
    Finset String :=
  (((args.filter (fun a => is_pattern a)).flatMap
      (fun p => signals.filter (fun s => fnmatchcase s p))) ++
    args.filter (fun a => ! is_pattern a)).toFinset

/-- Result shape of `Tau.get`: a mapping, or the unwrapped single value. -/
inductive TauResult where
  | mapping (m : List (String × Option Val))
  | single (v : Option Val)

/-- Embedding of the latest-value path of `Tau.get` (lines 342-366, else
branch, `timestamps` false) over an abstract backend, given the backend's
known signals and its latest-value answer per signal: per resolved signal
`d = l[0] if l else None`, then the value alone; a single non-pattern
argument unwraps the mapping. -/
def tauGetLatest (signals : List String) (bget : String → List Sample)
    (args : List String) : TauResult :=
  let sigs := matching_signals signals args
  let m := (sigs.sort (· ≤ ·)).map (fun s => (s, ((bget s).head?).map Prod.snd))
  match args with
  | [a] =>
      if is_pattern a then .mapping m
      else .single ((((m.find? (fun p => p.1 = a)).map Prod.snd).join))
  | _ => .mapping m

/-! ### Lemmas about the shared downsampling -/

theorem everyNthGo_getElem? (s : ℕ) (hs : 1 ≤ s) :
    ∀ (l : List α) (k i : ℕ), (everyNthGo s l k)[i]? = l[k + s * i]? := by
  intro l
  induction l with
  | nil => intro k i; simp [everyNthGo]
  | cons a l ih =>
      intro k i
      cases k with
      | zero =>
          cases i with
          | zero => simp [everyNthGo]
          | succ j =>
              have h1 : (everyNthGo s (a :: l) 0)[j + 1]? = (everyNthGo s l (s - 1))[j]? := by
                simp [everyNthGo]
              rw [h1, ih]
              have h2 : 0 + s * (j + 1) = (s - 1 + s * j) + 1 := by
                cases s with
                | zero => omega
                | succ t => ring_nf; omega
              rw [h2]
              simp
      | succ m =>
          have h1 : everyNthGo s (a :: l) (m + 1) = everyNthGo s l m := by
            simp [everyNthGo]
          rw [h1, ih]
          have h2 : m + 1 + s * i = (m + s * i) + 1 := by omega
          rw [h2]
          simp

theorem everyNthGo_sublist (s : ℕ) :
    ∀ (l : List α) (k : ℕ), (everyNthGo s l k).Sublist l := by
  intro l
  induction l with
  | nil => intro k; simp [everyNthGo]
  | cons a l ih =>
      intro k
      cases k with
      | zero => exact (ih (s - 1)).cons₂ a
      | succ m => exact (ih m).cons a

theorem everyNth_length_le (l : List α) (lim : ℕ) (h : 1 ≤ lim) :
    (everyNth l (l.length / lim + 1)).length ≤ lim := by
  have h2 : l.length % lim < lim := Nat.mod_lt _ (by omega)
  have hlen : l.length < (l.length / lim + 1) * lim := by
    calc l.length = lim * (l.length / lim) + l.length % lim := (Nat.div_add_mod _ _).symm
      _ < lim * (l.length / lim) + lim := Nat.add_lt_add_left h2 _
      _ = (l.length / lim + 1) * lim := by ring
  have hnone : (everyNth l (l.length / lim + 1))[lim]? = none := by
    rw [everyNth, everyNthGo_getElem? (l.length / lim + 1) (Nat.le_add_left 1 _) l 0 lim]
    exact List.getElem?_eq_none (by simpa using hlen.le)
  exact List.getElem?_eq_none_iff.mp hnone

/-- The claim's stride formula: for `limit ≥ 1` the `max` is redundant. -/
theorem stride_max_eq (n lim : ℕ) : max 1 (n / lim + 1) = n / lim + 1 :=
  Nat.max_eq_right (Nat.le_add_left 1 _)

/-- C3: for every backend range query whose filtered range contains `count`
samples and every `limit ≥ 1`, the returned sequence is the decimation of
the filtered range at stride `max(1, count / limit + 1)` — indices 0,
stride, 2·stride, … — hence has length at most `limit` and is a subsequence
of the filtered range in original order; and the text backend's range
branch returns exactly this decimation of its filtered records. -/
theorem claimC3 (result : List Sample) (lim : ℕ) (h : 1 ≤ lim) :
    decimate result (some lim) = everyNth result (max 1 (result.length / lim + 1)) ∧
    (∀ i : ℕ, (decimate result (some lim))[i]? = result[(result.length / lim + 1) * i]?) ∧
    (decimate result (some lim)).length ≤ lim ∧
    (decimate result (some lim)).Sublist result ∧
    (∀ (st : CSVState) (sig : String) (s e : ℤ) (records : List Sample),
      (st.find? (fun p => p.1 = sig)).map Prod.snd = some records →
      sig ∈ csvSignals st →
      csvGet st sig (some s) (some e) (some lim) =
        .ok (decimate (records.filter (fun kv => decide (s ≤ kv.1 ∧ kv.1 ≤ e)))
          (some lim))) := by
  refine ⟨by rw [stride_max_eq]; rfl, ?_, ?_, ?_, ?_⟩
  · intro i
    show (everyNth result (result.length / lim + 1))[i]? = _
    rw [everyNth, everyNthGo_getElem? _ (Nat.le_add_left 1 _) result 0 i]
    simp
  · exact everyNth_length_le result lim h
  · exact everyNthGo_sublist _ result 0
  · intro st sig s e records hfind hsig
    unfold csvGet
    rw [if_pos hsig, hfind]

/-- Witness for C3 on the spec's example: a filtered range of 10 samples
with `limit = 4` returns at most 4 samples. -/
theorem claimC3_witness :
    (decimate [((0:ℤ), Val.null), (1, Val.null), (2, Val.null), (3, Val.null),
      (4, Val.null), (5, Val.null), (6, Val.null), (7, Val.null),
      (8, Val.null), (9, Val.null)] (some 4)).length ≤ 4 :=
  (claimC3 _ 4 (by norm_num)).2.2.1

/-! ### Lemmas about MemoryBackend -/

theorem lookupSig_truncate (st : MemState) (n w : ℤ) (sig : String) :
    lookupSig (truncate st n w) sig =
      (lookupSig st sig).map (fun l => l.filter (fun s => decide (n - s.1 < w))) := by
  induction st with
  | nil => rfl
  | cons p rest ih =>
      by_cases h : p.1 = sig
      · simp [truncate, lookupSig, List.find?_cons, h]
      · simp only [truncate, lookupSig, List.map_cons] at *
        rw [List.find?_cons_of_neg, List.find?_cons_of_neg]
        · exact ih
        · simpa using h
        · simpa using h

theorem mem_truncate {st : MemState} {n w : ℤ} {e : String × List Sample}
    (he : e ∈ truncate st n w) : ∀ s ∈ e.2, n - s.1 < w := by
  rcases List.mem_map.mp he with ⟨p, _, rfl⟩
  intro s hs
  exact of_decide_eq_true (List.mem_filter.mp hs).2

theorem lookupSig_mem {st : MemState} {sig : String} {series : List Sample}
    (h : lookupSig st sig = some series) : ∃ e ∈ st, e.2 = series := by
  unfold lookupSig at h
  cases hf : st.find? (fun p => p.1 = sig) with
  | none => rw [hf] at h; simp at h
  | some e =>
      rw [hf] at h
      simp at h
      exact ⟨e, List.mem_of_find?_eq_some hf, h⟩

theorem memGetR_result_mem {st : MemState} {w n₂ : ℤ} {sig : String}
    {start end_ : Option ℤ} {lim : Option ℕ} {r : List Sample}
    (h : memGetR st w n₂ sig start end_ lim = .ok r) :
    ∀ s ∈ r, ∃ series, lookupSig st sig = some series ∧ s ∈ series := by
  intro s hs
  unfold memGetR at h
  cases hfind : lookupSig st sig with
  | none =>
      rw [hfind] at h
      simp at h
      subst h
      simp at hs
  | some series =>
      rw [hfind] at h
      refine ⟨series, rfl, ?_⟩
      cases series with
      | nil => simp at h; subst h; simp at hs
      | cons a t =>
          have hlast : (a :: t).getLastD ((0:ℤ), Val.null) ∈ a :: t := by
            rw [List.getLastD_cons]
            exact List.getLastD_mem_cons t a
          cases start with
          | none =>
              cases end_ with
              | none =>
                  replace h : (Except.ok [(a :: t).getLastD ((0:ℤ), Val.null)] :
                      Except PyErr (List Sample)) = Except.ok r := h
                  cases h
                  rw [List.mem_singleton.mp hs]
                  exact hlast
              | some e =>
                  replace h : (Except.ok [(a :: t).getLastD ((0:ℤ), Val.null)] :
                      Except PyErr (List Sample)) = Except.ok r := h
                  cases h
                  rw [List.mem_singleton.mp hs]
                  exact hlast
          | some st' =>
              cases end_ with
              | none =>
                  replace h : (Except.ok [(a :: t).getLastD ((0:ℤ), Val.null)] :
                      Except PyErr (List Sample)) = Except.ok r := h
                  cases h
                  rw [List.mem_singleton.mp hs]
                  exact hlast
              | some e =>
                  replace h : (if ¬ (n₂ - w < st' ∧ st' < e ∧ e < n₂) then
                      (Except.error PyErr.backendError : Except PyErr (List Sample))
                    else Except.ok (decimate
                      ((a :: t).filter (fun kv => decide (st' ≤ kv.1 ∧ kv.1 ≤ e)))
                      lim)) = Except.ok r := h
                  by_cases hc : ¬ (n₂ - w < st' ∧ st' < e ∧ e < n₂)
                  · rw [if_pos hc] at h; cases h
                  · rw [if_neg hc] at h
                    cases h
                    have hsub : s ∈ (a :: t).filter
                        (fun kv => decide (st' ≤ kv.1 ∧ kv.1 ≤ e)) :=
                      (everyNthGo_sublist _ _ 0).subset hs
                    exact (List.mem_filter.mp hsub).1

theorem lookupSig_appendSample_self (st : MemState) (k : String) (smp : Sample) :
    lookupSig (appendSample st k smp) k =
      some ((lookupSig st k).getD [] ++ [smp]) := by
  induction st with
  | nil => simp [appendSample, lookupSig, List.find?_cons]
  | cons p rest ih =>
      obtain ⟨k', l⟩ := p
      by_cases h : k' = k
      · subst h
        simp [appendSample, lookupSig, List.find?_cons]
      · simp only [appendSample, if_neg h]
        unfold lookupSig at *
        rw [List.find?_cons_of_neg, List.find?_cons_of_neg]
        · exact ih
        · simpa using h
        · simpa using h

theorem memRoundTrip (st : MemState) (w : ℤ) (k : String) (v : Val) (t : ℤ)
    (hw : 0 < w) :
    (memGet (memSet st w k v t t) w t t k none none none).2 = .ok [(t, v)] := by
  have hp : decide (t - (t, v).1 < w) = true := decide_eq_true (by simpa using hw)
  have hfil : ∀ X : List Sample,
      (X ++ [(t, v)]).filter (fun s => decide (t - s.1 < w)) =
        X.filter (fun s => decide (t - s.1 < w)) ++ [(t, v)] := by
    intro X
    rw [List.filter_append]
    simp [hp, hw]
  have hser : lookupSig (truncate (memSet st w k v t t) t w) k =
      some ((((lookupSig st k).getD [] |>.filter
          (fun s => decide (t - s.1 < w))).filter
          (fun s => decide (t - s.1 < w))) ++ [(t, v)]) := by
    rw [memSet, lookupSig_truncate, lookupSig_truncate, lookupSig_appendSample_self]
    simp only [Option.map_some']
    rw [hfil, hfil]
  show memGetR (truncate (memSet st w k v t t) t w) w t k none none none = _
  unfold memGetR
  rw [hser]
  cases hL : (((lookupSig st k).getD [] |>.filter
      (fun s => decide (t - s.1 < w))).filter
      (fun s => decide (t - s.1 < w))) ++ [(t, v)] with
  | nil => exact absurd hL (by simp)
  | cons a t' =>
      have : (a :: t').getLastD ((0 : ℤ), Val.null) = (t, v) := by
        rw [← hL, List.getLastD_eq_getLast?, List.getLast?_concat]
        rfl
      show Except.ok [(a :: t').getLastD ((0 : ℤ), Val.null)] = Except.ok [(t, v)]
      rw [this]

theorem csvSet_mem_signals (st : CSVState) (k : String) (v : Val) (t : ℤ) :
    k ∈ csvSignals (csvSet st k v t) := by
  induction st with
  | nil => simp [csvSet, csvSignals]
  | cons p rest ih =>
      obtain ⟨k', l⟩ := p
      by_cases h : k' = k
      · subst h; simp [csvSet, csvSignals]
      · simp only [csvSet, if_neg h, csvSignals, List.map_cons, List.mem_cons]
        exact Or.inr ih

theorem csvSet_lookup_self (st : CSVState) (k : String) (v : Val) (t : ℤ) :
    ((csvSet st k v t).find? (fun p => p.1 = k)).map Prod.snd =
      some (((st.find? (fun p => p.1 = k)).map Prod.snd).getD [] ++ [(t, v)]) := by
  induction st with
  | nil => simp [csvSet, List.find?_cons]
  | cons p rest ih =>
      obtain ⟨k', l⟩ := p
      by_cases h : k' = k
      · subst h
        simp [csvSet, List.find?_cons]
      · simp only [csvSet, if_neg h]
        rw [List.find?_cons_of_neg, List.find?_cons_of_neg]
        · exact ih
        · simpa using h
        · simpa using h

theorem csvRoundTrip (st : CSVState) (k : String) (v : Val) (t : ℤ) :
    csvGet (csvSet st k v t) k none none none = .ok [(t, v)] := by
  unfold csvGet
  rw [if_pos (csvSet_mem_signals st k v t), csvSet_lookup_self]
  cases hL : ((st.find? (fun p => p.1 = k)).map Prod.snd).getD [] ++ [(t, v)] with
  | nil => exact absurd hL (by simp)
  | cons a t' =>
      have hlast : (a :: t').getLast? = some (t, v) := by
        rw [← hL, List.getLast?_concat]
      show (match (a :: t').getLast? with
        | none => (Except.error PyErr.nameError : Except PyErr (List Sample))
        | some last => Except.ok [last]) = Except.ok [(t, v)]
      rw [hlast]

theorem memGetR_range_error_iff (st' : MemState) (w n₂ s e : ℤ) (sig : String)
    (lim : Option ℕ) :
    memGetR st' w n₂ sig (some s) (some e) lim = .error .backendError ↔
      ∃ series, lookupSig st' sig = some series ∧ series ≠ [] ∧
        ¬ (n₂ - w < s ∧ s < e ∧ e < n₂) := by
  unfold memGetR
  cases hfind : lookupSig st' sig with
  | none =>
      constructor
      · intro h; exact absurd h (by simp)
      · rintro ⟨series', hser, _, _⟩; cases hser
  | some series =>
      cases series with
      | nil =>
          constructor
          · intro h; exact absurd h (by simp)
          · rintro ⟨series', hser, hne, _⟩
            cases hser
            exact absurd rfl hne
      | cons a t =>
          show (if ¬ (n₂ - w < s ∧ s < e ∧ e < n₂) then
              (Except.error PyErr.backendError : Except PyErr (List Sample))
            else .ok (decimate
              ((a :: t).filter (fun kv => decide (s ≤ kv.1 ∧ kv.1 ≤ e))) lim)) =
              .error .backendError ↔ _
          by_cases hc : ¬ (n₂ - w < s ∧ s < e ∧ e < n₂)
          · rw [if_pos hc]
            exact ⟨fun _ => ⟨a :: t, rfl, by simp, hc⟩, fun _ => rfl⟩
          · rw [if_neg hc]
            constructor
            · intro h; exact absurd h (by simp)
            · rintro ⟨series', hser, _, hc'⟩
              cases hser
              exact absurd hc' hc

theorem memGetR_range_ok (st' : MemState) (w n₂ s e : ℤ) (sig : String)
    (lim : Option ℕ) (series : List Sample)
    (hser : lookupSig st' sig = some series)
    (hc : n₂ - w < s ∧ s < e ∧ e < n₂) :
    memGetR st' w n₂ sig (some s) (some e) lim =
      .ok (decimate (series.filter (fun kv => decide (s ≤ kv.1 ∧ kv.1 ≤ e))) lim) := by
  unfold memGetR
  rw [hser]
  cases series with
  | nil => simp [decimate, everyNth, everyNthGo]
  | cons a t =>
      show (if ¬ (n₂ - w < s ∧ s < e ∧ e < n₂) then
          (Except.error PyErr.backendError : Except PyErr (List Sample))
        else .ok (decimate
          ((a :: t).filter (fun kv => decide (s ≤ kv.1 ∧ kv.1 ≤ e))) lim)) = _
      rw [if_neg (not_not_intro hc)]

theorem memGetR_none (st' : MemState) (w n₂ : ℤ) (sig : String)
    (start end_ : Option ℤ) (lim : Option ℕ)
    (hser : lookupSig st' sig = none) :
    memGetR st' w n₂ sig start end_ lim = .ok [] := by
  unfold memGetR
  rw [hser]

/-- C2 (amended): a MemoryBackend range query raises BackendError exactly
when the signal is known with unexpired samples and the requested range is
not strictly inside the provable window, i.e. not
`now - w < start < end < now`; so it raises not only for a `start` at or
before `now - w` but also for `end ≥ now` or a degenerate range, and an
unknown or expired signal returns an empty sequence without raising, even
for a range reaching arbitrarily far back; a known signal queried with a
range strictly inside the window returns its qualifying samples. -/
theorem claimC2_amended (st : MemState) (w n₁ n₂ s e : ℤ) (sig : String)
    (lim : Option ℕ) :
    ((memGet st w n₁ n₂ sig (some s) (some e) lim).2 = .error .backendError ↔
      ∃ series, lookupSig (truncate st n₁ w) sig = some series ∧ series ≠ [] ∧
        ¬ (n₂ - w < s ∧ s < e ∧ e < n₂)) ∧
    (∀ series, lookupSig (truncate st n₁ w) sig = some series →
      (n₂ - w < s ∧ s < e ∧ e < n₂) →
      (memGet st w n₁ n₂ sig (some s) (some e) lim).2 =
        .ok (decimate (series.filter (fun kv => decide (s ≤ kv.1 ∧ kv.1 ≤ e))) lim)) ∧
    (lookupSig (truncate st n₁ w) sig = none →
      (memGet st w n₁ n₂ sig (some s) (some e) lim).2 = .ok []) := by
  refine ⟨?_, ?_, ?_⟩
  · exact memGetR_range_error_iff (truncate st n₁ w) w n₂ s e sig lim
  · intro series hser hc
    exact memGetR_range_ok (truncate st n₁ w) w n₂ s e sig lim series hser hc
  · intro hser
    exact memGetR_none (truncate st n₁ w) w n₂ sig (some s) (some e) lim hser

/-- Witness for the amended C2: a known in-window signal with a range
strictly inside the window does not raise. -/
theorem claimC2_witness :
    (memGet [("a", [((5:ℤ), Val.num 1)])] 10 10 10 "a" (some 6) (some 9) none).2 =
      .ok [] := by
  have h := (claimC2_amended [("a", [((5:ℤ), Val.num 1)])] 10 10 10 6 9 "a" none).2.1
  have h2 := h [((5:ℤ), Val.num 1)] rfl ⟨by norm_num, by norm_num, by norm_num⟩
  rw [h2]
  rfl

/-- Counterexample to C2 as stated: with the signal known and unexpired, a
range whose `start` is within the window but whose `end` equals `now`
raises BackendError although `start` does not fall further back than
`now - w`; and with an unknown signal, a range whose `start` falls far
before `now - w` returns an empty sequence instead of raising. -/
theorem claimC2_counterexample :
    (memGet [("a", [((5:ℤ), Val.num 1)])] 10 10 10 "a" (some 5) (some 10) none).2 =
      .error .backendError ∧
    ¬ ((5:ℤ) < 10 - 10) ∧
    (memGet ([] : MemState) 10 10 10 "a" (some (-100)) (some 5) none).2 = .ok [] ∧
    ((-100:ℤ) < 10 - 10) := by
  refine ⟨rfl, by norm_num, rfl, by norm_num⟩

/-- C4: after `set` or `get` completes, every retained sample is younger
than the retention window relative to the pruning instant, and no `get`
result ever contains a sample at least `w` old. -/
theorem claimC4 (st : MemState) (w : ℤ) :
    (∀ (k : String) (v : Val) (nA nT : ℤ),
      ∀ e ∈ memSet st w k v nA nT, ∀ s ∈ e.2, nT - s.1 < w) ∧
    (∀ (n₁ n₂ : ℤ) (sig : String) (start end_ : Option ℤ) (lim : Option ℕ),
      ∀ e ∈ (memGet st w n₁ n₂ sig start end_ lim).1, ∀ s ∈ e.2, n₁ - s.1 < w) ∧
    (∀ (n₁ n₂ : ℤ) (sig : String) (start end_ : Option ℤ) (lim : Option ℕ)
      (r : List Sample), (memGet st w n₁ n₂ sig start end_ lim).2 = .ok r →
      ∀ s ∈ r, n₁ - s.1 < w) := by
  refine ⟨?_, ?_, ?_⟩
  · intro k v nA nT e he
    exact mem_truncate he
  · intro n₁ n₂ sig start end_ lim e he
    exact mem_truncate he
  · intro n₁ n₂ sig start end_ lim r hr s hs
    have hmem := memGetR_result_mem hr s hs
    rcases hmem with ⟨series, hser, hsmem⟩
    rcases lookupSig_mem hser with ⟨en, hen, hsnd⟩
    exact mem_truncate hen s (hsnd ▸ hsmem)

/-- Witness for C4: a concrete latest-value read returns a sample strictly
younger than the window. -/
theorem claimC4_witness :
    (memGet [("a", [((0:ℤ), Val.num 1)])] 10 1 1 "a" none none none).2 =
      .ok [((0:ℤ), Val.num 1)] ∧ (1:ℤ) - 0 < 10 := by
  refine ⟨rfl, ?_⟩
  exact (claimC4 [("a", [((0:ℤ), Val.num 1)])] 10).2.2 1 1 "a" none none none
    [((0:ℤ), Val.num 1)] rfl ((0:ℤ), Val.num 1) (List.mem_singleton.mpr rfl)

/-! ### Lemmas about GlueBackend -/

/-- Bridge from a leaf backend call's outcome to a glue member outcome; the
leaf backends raise only BackendError out of `set`, which is what the glue
loops catch. -/
def asMember (r : Except PyErr α) : Except Unit Unit :=
  match r with
  | .ok _ => .ok ()
  | .error _ => .error ()

theorem glueGetGo_first_nonempty {α : Type} :
    ∀ (pre : List (Except Unit (List α))) (l : List α)
      (post : List (Except Unit (List α))) (g : Option (Option (List α))),
      (∀ m ∈ pre, m = .error () ∨ m = .ok []) → l ≠ [] →
      glueGetGo (pre ++ .ok l :: post) g = .ok l := by
  intro pre
  induction pre with
  | nil =>
      intro l post g _ hl
      cases l with
      | nil => exact absurd rfl hl
      | cons a t => rfl
  | cons m rest ih =>
      intro l post g h hl
      have hm := h m (List.mem_cons_self m rest)
      have hrest : ∀ m' ∈ rest, m' = .error () ∨ m' = .ok [] :=
        fun m' hm' => h m' (List.mem_cons_of_mem m hm')
      cases hm with
      | inl he => subst he; exact ih l post (some none) hrest hl
      | inr he => subst he; exact ih l post (some (some [])) hrest hl

theorem glueGetGo_last_error {α : Type} :
    ∀ (pre : List (Except Unit (List α))) (g : Option (Option (List α))),
      (∀ m ∈ pre, m = .error () ∨ m = .ok []) →
      glueGetGo (pre ++ [.error ()]) g = .error .backendError := by
  intro pre
  induction pre with
  | nil => intro g _; rfl
  | cons m rest ih =>
      intro g h
      have hm := h m (List.mem_cons_self m rest)
      have hrest : ∀ m' ∈ rest, m' = .error () ∨ m' = .ok [] :=
        fun m' hm' => h m' (List.mem_cons_of_mem m hm')
      cases hm with
      | inl he => subst he; exact ih (some none) hrest
      | inr he => subst he; exact ih (some (some [])) hrest

theorem glueGetGo_last_empty {α : Type} :
    ∀ (pre : List (Except Unit (List α))) (g : Option (Option (List α))),
      (∀ m ∈ pre, m = .error () ∨ m = .ok []) →
      glueGetGo (pre ++ [.ok []]) g = .ok [] := by
  intro pre
  induction pre with
  | nil => intro g _; rfl
  | cons m rest ih =>
      intro g h
      have hm := h m (List.mem_cons_self m rest)
      have hrest : ∀ m' ∈ rest, m' = .error () ∨ m' = .ok [] :=
        fun m' hm' => h m' (List.mem_cons_of_mem m hm')
      cases hm with
      | inl he => subst he; exact ih (some none) hrest
      | inr he => subst he; exact ih (some (some [])) hrest

/-- C1 (amended): `GlueBackend.get` queries members in order and returns the
first non-empty result; but when every queried member errors or returns an
empty sequence the outcome depends on the last member: BackendError only
when the last member raised; an empty sequence (success) when the last
member returned one; and on an empty member list the `got` local is read
before assignment, raising a NameError rather than BackendError. -/
theorem claimC1_amended :
    (∀ (pre post : List (Except Unit (List Sample))) (l : List Sample),
      (∀ m ∈ pre, m = .error () ∨ m = .ok []) → l ≠ [] →
      glueGet (pre ++ .ok l :: post) = .ok l) ∧
    (∀ pre : List (Except Unit (List Sample)),
      (∀ m ∈ pre, m = .error () ∨ m = .ok []) →
      glueGet (pre ++ [.error ()]) = .error .backendError) ∧
    (∀ pre : List (Except Unit (List Sample)),
      (∀ m ∈ pre, m = .error () ∨ m = .ok []) →
      glueGet (pre ++ [.ok []]) = .ok []) ∧
    glueGet ([] : List (Except Unit (List Sample))) = .error .unboundLocal := by
  refine ⟨?_, ?_, ?_, rfl⟩
  · intro pre post l h hl
    exact glueGetGo_first_nonempty pre l post none h hl
  · intro pre h
    exact glueGetGo_last_error pre none h
  · intro pre h
    exact glueGetGo_last_empty pre none h

/-- Witness for the amended C1: a failing member followed by a member with
data falls through to the data. -/
theorem claimC1_witness :
    glueGet [Except.error (), Except.ok [((3:ℤ), Val.num 7)]] =
      .ok [((3:ℤ), Val.num 7)] :=
  claimC1_amended.1 [Except.error ()] [] [((3:ℤ), Val.num 7)]
    (by intro m hm; rw [List.mem_singleton.mp hm]; exact Or.inl rfl) (by simp)

/-- Counterexample to C1 as stated: when the last (here only) member
returns an empty sequence the call returns that empty sequence instead of
raising BackendError, and on an empty member list it raises the unbound
local error, not BackendError. -/
theorem claimC1_counterexample :
    glueGet [Except.ok ([] : List Sample)] = .ok [] ∧
    (Except.ok ([] : List Sample) : Except GlueErr (List Sample)) ≠
      .error .backendError ∧
    glueGet ([] : List (Except Unit (List Sample))) = .error .unboundLocal ∧
    (Except.error GlueErr.unboundLocal : Except GlueErr (List Sample)) ≠
      .error .backendError :=
  ⟨rfl, by simp, rfl, by simp⟩

theorem glueSetGo_ok_iff :
    ∀ (ms : List (Except Unit Unit)) (b : Bool),
      glueSetGo ms b = .ok () ↔ (b = true ∨ ∃ m ∈ ms, m = .ok ()) := by
  intro ms
  induction ms with
  | nil =>
      intro b
      cases b <;> simp [glueSetGo]
  | cons m rest ih =>
      intro b
      cases m with
      | ok u =>
          cases u
          show glueSetGo rest true = .ok () ↔ _
          rw [ih true]
          simp
      | error u =>
          cases u
          show glueSetGo rest b = .ok () ↔ _
          rw [ih b]
          simp

theorem except_unit_total (r : Except Unit Unit) : r = .ok () ∨ r = .error () := by
  cases r with
  | ok u => cases u; exact Or.inl rfl
  | error u => cases u; exact Or.inr rfl

/-- C6: `GlueBackend.set` attempts every member in order swallowing
per-member BackendError; it succeeds if and only if at least one member
accepted the write and raises BackendError exactly when every member
rejected it; in particular a glue over a single binary member raises on a
non-numeric value. -/
theorem claimC6 (ms : List (Except Unit Unit)) :
    (glueSet ms = .ok () ↔ ∃ m ∈ ms, m = .ok ()) ∧
    (glueSet ms = .error () ↔ ∀ m ∈ ms, m = .error ()) ∧
    glueSet [asMember (binSet [] "key" (Val.str "I") 0)] = .error () := by
  have hok : glueSet ms = .ok () ↔ ∃ m ∈ ms, m = .ok () := by
    rw [glueSet, glueSetGo_ok_iff ms false]
    simp
  refine ⟨hok, ?_, rfl⟩
  constructor
  · intro herr m hm
    cases except_unit_total m with
    | inl h =>
        exfalso
        have : glueSet ms = .ok () := hok.mpr ⟨m, hm, h⟩
        rw [this] at herr
        cases herr
    | inr h => exact h
  · intro hall
    cases except_unit_total (glueSet ms) with
    | inl h =>
        exfalso
        rcases hok.mp h with ⟨m, hm, hmok⟩
        have := hall m hm
        rw [this] at hmok
        cases hmok
    | inr h => exact h

/-- C9 (amended): `GlueBackend.clear` clears members in order but stops at
the first member whose clear fails: that exception propagates and the
members after the failing one are never cleared; only when no member fails
is every member cleared. -/
theorem claimC9_amended :
    (∀ ms : List (Except Unit Unit), (∀ m ∈ ms, m = .ok ()) →
      glueClear ms = (ms.map (fun _ => true), false)) ∧
    (∀ pre post : List (Except Unit Unit), (∀ m ∈ pre, m = .ok ()) →
      glueClear (pre ++ .error () :: post) =
        (pre.map (fun _ => true) ++ true :: post.map (fun _ => false), true)) := by
  constructor
  · intro ms
    induction ms with
    | nil => intro _; rfl
    | cons m rest ih =>
        intro h
        have hm := h m (List.mem_cons_self m rest)
        subst hm
        have hrest : ∀ m' ∈ rest, m' = .ok () :=
          fun m' hm' => h m' (List.mem_cons_of_mem _ hm')
        show (true :: (glueClear rest).1, (glueClear rest).2) = _
        rw [ih hrest]
        simp
  · intro pre
    induction pre with
    | nil => intro post _; rfl
    | cons m rest ih =>
        intro post h
        have hm := h m (List.mem_cons_self m rest)
        subst hm
        have hrest : ∀ m' ∈ rest, m' = .ok () :=
          fun m' hm' => h m' (List.mem_cons_of_mem _ hm')
        show (true :: (glueClear (rest ++ .error () :: post)).1,
          (glueClear (rest ++ .error () :: post)).2) = _
        rw [ih post hrest]
        simp

/-- Witness for the amended C9: with no failing member every member's clear
runs. -/
theorem claimC9_witness :
    glueClear [Except.ok (), Except.ok ()] = ([true, true], false) :=
  claimC9_amended.1 [Except.ok (), Except.ok ()]
    (by
      intro m hm
      rcases List.mem_cons.mp hm with h | h
      · exact h
      · exact List.mem_singleton.mp h)

/-- Counterexample to C9 as stated: when the first member's clear fails the
second member is never cleared (its invocation flag stays false) and the
exception escapes. -/
theorem claimC9_counterexample :
    glueClear [Except.error (), Except.ok ()] = ([true, false], true) ∧
    ([true, false] : List Bool) ≠ [true, true] :=
  ⟨rfl, by simp⟩

/-! ### Lemmas about BinaryBackend naming and reads -/

theorem head?_dropWhile_not (p : α → Bool) :
    ∀ (l : List α) (a : α), (l.dropWhile p).head? = some a → p a = false := by
  intro l
  induction l with
  | nil => intro a h; cases h
  | cons b t ih =>
      intro a h
      by_cases hp : p b = true
      · rw [List.dropWhile_cons_of_pos hp] at h
        exact ih a h
      · rw [List.dropWhile_cons_of_neg hp] at h
        cases h
        exact Bool.not_eq_true _ |>.mp hp

theorem dropWhile_append_all (p : α → Bool) :
    ∀ (l₁ l₂ : List α), (∀ a ∈ l₁, p a = true) →
      (l₁ ++ l₂).dropWhile p = l₂.dropWhile p := by
  intro l₁
  induction l₁ with
  | nil => intro l₂ _; rfl
  | cons b t ih =>
      intro l₂ h
      rw [List.cons_append, List.dropWhile_cons_of_pos (h b (List.mem_cons_self b t))]
      exact ih l₂ (fun a ha => h a (List.mem_cons_of_mem b ha))

theorem pyRstrip_last_not_mem (f : String) (cs : List Char) (c : Char)
    (h : (pyRstrip f cs).data.getLast? = some c) : c ∉ cs := by
  unfold pyRstrip at h
  rw [List.getLast?_reverse] at h
  have := head?_dropWhile_not _ _ _ h
  simpa using this

theorem binSignals_no_trailing (fs : BinFS) (k : String) (c : Char)
    (hlast : k.data.getLast? = some c)
    (hmem : c ∈ ['.', 'V', 'A', 'L', 'U', 'E']) : k ∉ binSignals fs := by
  intro hk
  unfold binSignals at hk
  rcases List.mem_map.mp hk with ⟨f, _, hf⟩
  exact pyRstrip_last_not_mem f _ c (by rw [hf]; exact hlast) hmem

theorem binGet_not_signal {fs : BinFS} {k : String} (h : k ∉ binSignals fs)
    (start end_ : Option ℤ) (lim : Option ℕ) :
    binGet fs k start end_ lim = .ok [] := by
  unfold binGet
  rw [if_neg h]

theorem pyRstrip_append_good (k : String) (c : Char)
    (hlast : k.data.getLast? = some c)
    (hc : c ∉ ['.', 'V', 'A', 'L', 'U', 'E']) :
    pyRstrip (k ++ ".VALUE") ['.', 'V', 'A', 'L', 'U', 'E'] = k := by
  unfold pyRstrip
  rw [String.data_append, List.reverse_append]
  rw [dropWhile_append_all _ _ _ (by decide)]
  have hhead : k.data.reverse.head? = some c := by
    rw [List.head?_reverse]; exact hlast
  cases hrev : k.data.reverse with
  | nil => rw [hrev] at hhead; cases hhead
  | cons a t =>
      rw [hrev] at hhead
      have ha : a = c := by cases hhead; rfl
      subst ha
      rw [List.dropWhile_cons_of_neg (by simpa using hc), ← hrev,
        List.reverse_reverse]

theorem fsUpd_name_mem : ∀ (fs : BinFS) (n : String) (f : Option BinFile → BinFile),
    n ∈ (fsUpd fs n f).map Prod.fst := by
  intro fs
  induction fs with
  | nil => intro n f; simp [fsUpd]
  | cons p rest ih =>
      intro n f
      obtain ⟨n', d⟩ := p
      by_cases h : n' = n
      · subst h; simp [fsUpd]
      · simp only [fsUpd, if_neg h, List.map_cons, List.mem_cons]
        exact Or.inr (ih n f)

theorem pyEndsWith_append (s t : String) : pyEndsWith (s ++ t) t = true := by
  unfold pyEndsWith
  rw [String.data_append, List.reverse_append]
  exact List.isPrefixOf_iff_prefix.mpr (List.prefix_append _ _)

theorem binSet_name_mem {fs fs' : BinFS} {k : String} {v : Val} {t : ℤ}
    (hset : binSet fs k v t = .ok fs') (c : Char)
    (hlast : k.data.getLast? = some c)
    (hc : c ∉ ['.', 'V', 'A', 'L', 'U', 'E']) : k ∈ binSignals fs' := by
  unfold binSet at hset
  cases hq : pyFloat v with
  | none => rw [hq] at hset; cases hset
  | some q =>
      rw [hq] at hset
      cases hset
      have hname : (k ++ ".VALUE") ∈
          (fsUpd (fsUpd fs (k ++ ".TIME")
            (fun old => .timeF (timeRecs old ++ [toTicks t]))) (k ++ ".VALUE")
            (fun old => .valueF (valueRecs old ++ [roundF32 q]))).map Prod.fst :=
        fsUpd_name_mem _ _ _
      unfold binSignals
      refine List.mem_map.mpr ⟨k ++ ".VALUE", ?_, pyRstrip_append_good k c hlast hc⟩
      exact List.mem_filter.mpr ⟨hname, pyEndsWith_append k ".VALUE"⟩

/-- C10: `BinaryBackend.signals` derives names by `rstrip` of the character
set of `'.VALUE'`, not by suffix removal: no reported signal name ever ends
in one of `.`, `V`, `A`, `L`, `U`, `E`, so a written signal whose name ends
in one of those characters is absent from `signals()` in every directory
state and a `get` for it returns the empty sequence, while a written name
ending in any other character is reported intact. -/
theorem claimC10 :
    (∀ (fs : BinFS) (k : String) (c : Char), k.data.getLast? = some c →
      c ∈ ['.', 'V', 'A', 'L', 'U', 'E'] →
      k ∉ binSignals fs ∧
      ∀ (start end_ : Option ℤ) (lim : Option ℕ),
        binGet fs k start end_ lim = .ok []) ∧
    (∀ (fs fs' : BinFS) (k : String) (v : Val) (t : ℤ) (c : Char),
      binSet fs k v t = .ok fs' → k.data.getLast? = some c →
      c ∉ ['.', 'V', 'A', 'L', 'U', 'E'] →
      k ∈ binSignals fs') ∧
    (∀ (fs : BinFS) (s : String), s ∈ binSignals fs →
      ∀ c, s.data.getLast? = some c → c ∉ ['.', 'V', 'A', 'L', 'U', 'E']) := by
  refine ⟨?_, ?_, ?_⟩
  · intro fs k c hlast hmem
    have habs := binSignals_no_trailing fs k c hlast hmem
    exact ⟨habs, fun start end_ lim => binGet_not_signal habs start end_ lim⟩
  · intro fs fs' k v t c hset hlast hc
    exact binSet_name_mem hset c hlast hc
  · intro fs s hs c hlast
    unfold binSignals at hs
    rcases List.mem_map.mp hs with ⟨f, _, hf⟩
    exact pyRstrip_last_not_mem f _ c (by rw [hf]; exact hlast)

/-- Witness for C10: `LEVEL` vanishes from `signals()` and reads empty,
while `rpm1` survives a write intact. -/
theorem claimC10_witness :
    "LEVEL" ∉ binSignals [("LEVEL.TIME", BinFile.timeF [0]),
      ("LEVEL.VALUE", BinFile.valueF [1])] ∧
    binGet [("LEVEL.TIME", BinFile.timeF [0]), ("LEVEL.VALUE", BinFile.valueF [1])]
      "LEVEL" none none none = .ok [] ∧
    "rpm1" ∈ binSignals [("rpm1.TIME", BinFile.timeF [0]),
      ("rpm1.VALUE", BinFile.valueF [roundF32 1])] := by
  have h1 := (claimC10.1 [("LEVEL.TIME", BinFile.timeF [0]),
    ("LEVEL.VALUE", BinFile.valueF [1])] "LEVEL" 'L' rfl (by decide))
  refine ⟨h1.1, h1.2 none none none, ?_⟩
  exact claimC10.2.1 [] _ "rpm1" (Val.bool true) 0 '1' rfl rfl (by decide)

/-- C7 (divergence at the failing input): for a known signal whose log file
exists but holds no complete record, the latest-value `get` of the text and
binary backends raises the unbound-loop-variable NameError instead of
returning the empty sequence the claim (and the repository's own test
`test_file_backends_dont_fail_if_file_is_empty`) requires. -/
theorem claimC7_divergence :
    csvGet [("hai", [])] "hai" none none none = .error .nameError ∧
    binGet [("hai.TIME", BinFile.timeF []), ("hai.VALUE", BinFile.valueF [])]
      "hai" none none none = .error .nameError ∧
    (Except.error PyErr.nameError : Except PyErr (List Sample)) ≠ .ok [] ∧
    (Except.error PyErr.nameError : Except PyErr (List (ℤ × ℚ))) ≠ .ok [] :=
  ⟨rfl, rfl, by simp, by simp⟩

/-! ### Round trips (C5) -/

theorem fsFind_cons_self (n : String) (d : BinFile) (rest : BinFS) :
    fsFind ((n, d) :: rest) n = some d := by
  simp [fsFind, List.find?_cons]

theorem fsFind_cons_ne {n n' : String} (h : n' ≠ n) (d : BinFile) (rest : BinFS) :
    fsFind ((n', d) :: rest) n = fsFind rest n := by
  unfold fsFind
  rw [List.find?_cons_of_neg]
  simpa using h

theorem fsFind_absent_append {l₁ : BinFS} {n : String} (h : fsFind l₁ n = none)
    (l₂ : BinFS) : fsFind (l₁ ++ l₂) n = fsFind l₂ n := by
  induction l₁ with
  | nil => rfl
  | cons p rest ih =>
      obtain ⟨n', d⟩ := p
      by_cases hn : n' = n
      · subst hn
        rw [fsFind_cons_self] at h
        cases h
      · rw [fsFind_cons_ne hn] at h
        rw [List.cons_append, fsFind_cons_ne hn]
        exact ih h

theorem fsUpd_absent {fs : BinFS} {n : String} (h : fsFind fs n = none)
    (f : Option BinFile → BinFile) : fsUpd fs n f = fs ++ [(n, f none)] := by
  induction fs with
  | nil => rfl
  | cons p rest ih =>
      obtain ⟨n', d⟩ := p
      by_cases hn : n' = n
      · subst hn
        rw [fsFind_cons_self] at h
        cases h
      · rw [fsFind_cons_ne hn] at h
        show (if n' = n then _ else _) = _
        rw [if_neg hn, List.cons_append]
        rw [ih h]

theorem time_ne_value (k : String) : (k ++ ".TIME") ≠ (k ++ ".VALUE") := by
  intro h
  have hd := congrArg String.data h
  rw [String.data_append, String.data_append] at hd
  exact absurd (List.append_cancel_left hd) (by decide)

theorem toDate_toTicks (t : ℤ) : toDate (toTicks t) = t := by
  unfold toDate toTicks
  exact Int.mul_fdiv_cancel t (by norm_num)

theorem binRoundTrip (fs : BinFS) (k : String) (v : Val) (q : ℚ) (t : ℤ) (c : Char)
    (hq : pyFloat v = some q) (hlast : k.data.getLast? = some c)
    (hc : c ∉ ['.', 'V', 'A', 'L', 'U', 'E'])
    (hT : fsFind fs (k ++ ".TIME") = none)
    (hV : fsFind fs (k ++ ".VALUE") = none) :
    ∃ fs', binSet fs k v t = .ok fs' ∧
      binGet fs' k none none none = .ok [(t, roundF32 q)] := by
  have hset : binSet fs k v t = .ok (fsUpd (fsUpd fs (k ++ ".TIME")
      (fun old => .timeF (timeRecs old ++ [toTicks t]))) (k ++ ".VALUE")
      (fun old => .valueF (valueRecs old ++ [roundF32 q]))) := by
    unfold binSet
    rw [hq]
  set fs1 := fsUpd fs (k ++ ".TIME")
    (fun old => .timeF (timeRecs old ++ [toTicks t])) with hfs1
  set fs2 := fsUpd fs1 (k ++ ".VALUE")
    (fun old => .valueF (valueRecs old ++ [roundF32 q])) with hfs2
  refine ⟨fs2, hset, ?_⟩
  have he1 : fs1 = fs ++ [(k ++ ".TIME", BinFile.timeF [toTicks t])] := by
    rw [hfs1, fsUpd_absent hT]
    rfl
  have hV1 : fsFind fs1 (k ++ ".VALUE") = none := by
    rw [he1, fsFind_absent_append hV, fsFind_cons_ne (time_ne_value k)]
    rfl
  have he2 : fs2 = fs ++ [(k ++ ".TIME", BinFile.timeF [toTicks t]),
      (k ++ ".VALUE", BinFile.valueF [roundF32 q])] := by
    rw [hfs2, fsUpd_absent hV1, he1, List.append_assoc]
    rfl
  have hmem : k ∈ binSignals fs2 := binSet_name_mem hset c hlast hc
  have hfT : fsFind fs2 (k ++ ".TIME") = some (BinFile.timeF [toTicks t]) := by
    rw [he2, fsFind_absent_append hT, fsFind_cons_self]
  have hfV : fsFind fs2 (k ++ ".VALUE") = some (BinFile.valueF [roundF32 q]) := by
    rw [he2, fsFind_absent_append hV, fsFind_cons_ne (time_ne_value k),
      fsFind_cons_self]
  unfold binGet
  rw [if_pos hmem, hfT, hfV]
  show Except.ok [(toDate (toTicks t), roundF32 q)] = _
  rw [toDate_toTicks]

theorem flogUp_eq : ∀ (k fuel : ℕ) (q : ℚ), k < fuel →
    2 ^ k ≤ q → q < 2 ^ (k + 1) → flogUp fuel q = (k : ℤ) := by
  intro k
  induction k with
  | zero =>
      intro fuel q hf h1 h2
      cases fuel with
      | zero => omega
      | succ f =>
          show (if q < 2 then 0 else flogUp f (q / 2) + 1) = 0
          rw [if_pos ?_]
          calc q < 2 ^ (0 + 1) := h2
            _ = 2 := by norm_num
  | succ k ih =>
      intro fuel q hf h1 h2
      cases fuel with
      | zero => omega
      | succ f =>
          have h2le : (2 : ℚ) ≤ q := by
            calc (2 : ℚ) = 2 ^ 1 := (pow_one 2).symm
              _ ≤ 2 ^ (k + 1) := pow_le_pow_right₀ (by norm_num) (by omega)
              _ ≤ q := h1
          show (if q < 2 then 0 else flogUp f (q / 2) + 1) = ((k : ℤ) + 1)
          rw [if_neg (not_lt.mpr h2le)]
          have hrec : flogUp f (q / 2) = (k : ℤ) := by
            refine ih f (q / 2) (by omega) ?_ ?_
            · rw [le_div_iff₀ (by norm_num : (0:ℚ) < 2)]
              calc (2:ℚ) ^ k * 2 = 2 ^ (k + 1) := by rw [pow_succ]
                _ ≤ q := h1
            · rw [div_lt_iff₀ (by norm_num : (0:ℚ) < 2)]
              calc q < 2 ^ (k + 1 + 1) := h2
                _ = 2 ^ (k + 1) * 2 := by rw [pow_succ]
          rw [hrec]

theorem roundHalfEven_tie_even (q : ℚ) (n : ℤ) (h1 : (n : ℚ) ≤ q)
    (h2 : q - n = 1 / 2) (heven : n % 2 = 0) : roundHalfEven q = n := by
  have hfl : ⌊q⌋ = n := Int.floor_eq_iff.mpr ⟨h1, by
    have : q = (n : ℚ) + 1 / 2 := by linarith
    rw [this]
    linarith⟩
  unfold roundHalfEven
  rw [hfl]
  show (if q - (n : ℚ) < 1 / 2 then n
    else if 1 / 2 < q - (n : ℚ) then n + 1
    else if n % 2 = 0 then n else n + 1) = n
  rw [h2, if_neg (by norm_num), if_neg (by norm_num), if_pos heven]

theorem pow2_neg_one : pow2 (-1 : ℤ) = 1 / 2 := by
  unfold pow2
  rw [if_neg (by norm_num)]
  show 1 / (2 : ℚ) ^ ((1 : ℤ)).toNat = 1 / 2
  norm_num

theorem pow2_one : pow2 (1 : ℤ) = 2 := by
  unfold pow2
  rw [if_pos (by norm_num)]
  show (2 : ℚ) ^ ((1 : ℤ)).toNat = 2
  norm_num

/-- The binary32 rounding of 16777217 = 2^24 + 1: the significand has only
24 bits, the tie goes to the even neighbour 16777216. -/
theorem roundF32_16777217 : roundF32 (16777217 : ℚ) = 16777216 := by
  have hlog : floorLog2 (16777217 : ℚ) = 24 := by
    unfold floorLog2
    rw [if_pos (by norm_num)]
    exact flogUp_eq 24 _ _ (by norm_num [Rat.num_ofNat]) (by norm_num)
      (by norm_num)
  unfold roundF32
  rw [if_neg (by norm_num), if_pos (by norm_num)]
  show (roundHalfEven ((16777217 : ℚ) *
      pow2 (23 - max (floorLog2 (16777217 : ℚ)) (-126))) : ℚ) *
    pow2 (max (floorLog2 (16777217 : ℚ)) (-126) - 23) = 16777216
  rw [hlog]
  have hmax : max (24 : ℤ) (-126) = 24 := by norm_num
  rw [hmax]
  have h23 : (23 : ℤ) - 24 = -1 := by norm_num
  have h24 : (24 : ℤ) - 23 = 1 := by norm_num
  rw [h23, h24, pow2_neg_one, pow2_one]
  have hrh : roundHalfEven ((16777217 : ℚ) * (1 / 2)) = 8388608 :=
    roundHalfEven_tie_even _ 8388608 (by norm_num) (by norm_num) (by norm_num)
  rw [hrh]
  norm_num

/-- C5 (amended): `set` then latest-value `get` returns the written value
unchanged for the memory backend (within the retention window) and for the
text backend, for scalar and compound values alike; for the binary backend
the returned value is the IEEE-754 binary32 rounding of `float(v)`, which
differs from `float(v)` for values not representable in 32 bits. -/
theorem claimC5_amended :
    (∀ (st : MemState) (w : ℤ) (k : String) (v : Val) (t : ℤ), 0 < w →
      (memGet (memSet st w k v t t) w t t k none none none).2 = .ok [(t, v)]) ∧
    (∀ (st : CSVState) (k : String) (v : Val) (t : ℤ),
      csvGet (csvSet st k v t) k none none none = .ok [(t, v)]) ∧
    (∀ (fs : BinFS) (k : String) (v : Val) (q : ℚ) (t : ℤ) (c : Char),
      pyFloat v = some q → k.data.getLast? = some c →
      c ∉ ['.', 'V', 'A', 'L', 'U', 'E'] →
      fsFind fs (k ++ ".TIME") = none → fsFind fs (k ++ ".VALUE") = none →
      ∃ fs', binSet fs k v t = .ok fs' ∧
        binGet fs' k none none none = .ok [(t, roundF32 q)]) := by
  refine ⟨?_, ?_, ?_⟩
  · intro st w k v t hw
    exact memRoundTrip st w k v t hw
  · intro st k v t
    exact csvRoundTrip st k v t
  · intro fs k v q t c hq hlast hc hT hV
    exact binRoundTrip fs k v q t c hq hlast hc hT hV

/-- Witness for the amended C5: a concrete memory round trip of a compound
value, and a concrete binary round trip returning the rounded float. -/
theorem claimC5_witness :
    (memGet (memSet [] 10 "foo" (Val.list [Val.num 2, Val.bool true]) 0 0)
      10 0 0 "foo" none none none).2 =
      .ok [(0, Val.list [Val.num 2, Val.bool true])] ∧
    ∃ fs', binSet [] "b" (Val.num 1) 0 = .ok fs' ∧
      binGet fs' "b" none none none = .ok [(0, roundF32 1)] := by
  constructor
  · exact claimC5_amended.1 [] 10 "foo" (Val.list [Val.num 2, Val.bool true]) 0
      (by norm_num)
  · exact claimC5_amended.2.2 [] "b" (Val.num 1) 1 0 'b' rfl rfl (by decide)
      rfl rfl

/-- Counterexample to C5 as stated: `float(16777217)` is exactly 16777217,
yet the binary round trip returns 16777216 — the stored 4-byte float has
only a 24-bit significand, so `get` does not return `float(v)`. -/
theorem claimC5_counterexample :
    binSet [] "k" (Val.num 16777217) 0 =
      .ok [("k.TIME", BinFile.timeF [0]),
        ("k.VALUE", BinFile.valueF [(16777216 : ℚ)])] ∧
    binGet [("k.TIME", BinFile.timeF [0]),
      ("k.VALUE", BinFile.valueF [(16777216 : ℚ)])] "k" none none none =
      .ok [(0, (16777216 : ℚ))] ∧
    pyFloat (Val.num 16777217) = some 16777217 ∧
    (16777216 : ℚ) ≠ 16777217 := by
  refine ⟨?_, rfl, rfl, by norm_num⟩
  show Except.ok [("k.TIME", BinFile.timeF [0]),
    ("k.VALUE", BinFile.valueF [roundF32 16777217])] = _
  rw [roundF32_16777217]

/-! ### Pattern resolution (C8) -/

/-- C8: every non-pattern argument passes through verbatim, every pattern
argument expands to the glob-matching subset of the known signals, and the
queried set is the duplicate-free union of both; on the spec's concrete
signal set the three examples resolve exactly as stated, and a pattern
matching nothing yields an empty mapping from the latest-value query. -/
theorem claimC8 :
    (∀ (signals args : List String),
      matching_signals signals args =
        (args.filter (fun a => ! is_pattern a)).toFinset ∪
          (signals.filter (fun s =>
            args.any (fun a => is_pattern a && fnmatchcase s a))).toFinset) ∧
    matching_signals ["meanSpeed", "meanPower", "rpm1", "rpm2", "foo"]
      ["mean*"] = {"meanSpeed", "meanPower"} ∧
    matching_signals ["meanSpeed", "meanPower", "rpm1", "rpm2", "foo"]
      ["rpm[12]", "meanSpeed"] = {"rpm1", "rpm2", "meanSpeed"} ∧
    matching_signals ["meanSpeed", "meanPower", "rpm1", "rpm2", "foo"]
      ["?"] = ∅ ∧
    (∀ bget : String → List Sample,
      tauGetLatest ["meanSpeed", "meanPower", "rpm1", "rpm2", "foo"] bget
        ["?"] = .mapping []) := by
  refine ⟨?_, by decide, by decide, by decide, ?_⟩
  · intro signals args
    ext x
    simp only [matching_signals, List.mem_toFinset, List.mem_append,
      List.mem_flatMap, List.mem_filter, Finset.mem_union, List.any_eq_true,
      Bool.and_eq_true, Bool.not_eq_true']
    constructor
    · rintro (⟨p, ⟨hpargs, hppat⟩, hx, hmatch⟩ | ⟨hxargs, hxnp⟩)
      · exact Or.inr ⟨hx, p, hpargs, hppat, hmatch⟩
      · exact Or.inl ⟨hxargs, hxnp⟩
    · rintro (⟨hxargs, hxnp⟩ | ⟨hx, p, hpargs, hppat, hmatch⟩)
      · exact Or.inr ⟨hxargs, hxnp⟩
      · exact Or.inl ⟨p, ⟨hpargs, hppat⟩, hx, hmatch⟩
  · intro bget
    have h0 : matching_signals ["meanSpeed", "meanPower", "rpm1", "rpm2", "foo"]
        ["?"] = ∅ := by decide
    simp [tauGetLatest, h0, Finset.sort_empty,
      show is_pattern "?" = true from rfl]

/-- Witness for C6: one rejecting and one accepting member make the
composite write succeed. -/
theorem claimC6_witness :
    glueSet [Except.error (), Except.ok ()] = .ok () :=
  (claimC6 [Except.error (), Except.ok ()]).1.mpr
    ⟨Except.ok (), by simp, rfl⟩
